import Mathlib

/-!
Verification of the Cache Partitioning & Contention-Scoring Engine.

Definitions are shallow embeddings of the repository's C / awk sources:
  * `count_bits`, `split_mask`  — `cos.c` and `split_cache_and_monitor.c`
  * the miss-field parser       — the awk block of `noisy_detector.sh`
  * the contention scorer       — the awk END block of `noisy_detector.sh`
  * the startup / monitor / teardown pipelines of the two partition monitors.
Machine integers are modelled as `Nat` with explicit 64-bit bounds where the
C code relies on `uint64_t` semantics; awk floating-point arithmetic is
modelled over `ℚ`.
-/

/-- All-ones 64-bit word, the value of `~0` on `uint64_t`. -/
def UINT64_MAX : Nat := 2 ^ 64 - 1

/-- `count_bits` from `cos.c`: Kernighan popcount loop `while (x) x &= x-1`. -/
def count_bits (x : Nat) : Nat :=
  if h : x = 0 then 0
  else count_bits (x &&& (x - 1)) + 1
decreasing_by
  exact Nat.lt_of_le_of_lt Nat.and_le_right (Nat.sub_lt (Nat.pos_of_ne_zero h) Nat.one_pos)

/-- Binary-recursion popcount, the mathematical reference point. -/
def popcount (x : Nat) : Nat :=
  if h : x = 0 then 0
  else popcount (x / 2) + x % 2
decreasing_by
  exact Nat.div_lt_self (Nat.pos_of_ne_zero h) Nat.one_lt_two

/-- Number of set bits of `m` at positions `< b` (low-bit prefix count). -/
def bitsBelow (m b : Nat) : Nat :=
  (List.range b).countP (fun i => m.testBit i)

/-- The popcount loop of `split_cache_and_monitor.c`:
`for (b = 0; b < 64; b++) if ((mask >> b) & 1) total_bits++`. -/
def countBits64 (m : Nat) : Nat := bitsBelow m 64

/-- The bit-picking loop of `split_mask`:
`for (b = 0; b < 64 && picked < half; b++) if bit b set then m1 |= 1<<b`.
`fuel` counts the remaining iterations (64 at entry), `b` the current bit. -/
def pickAux (m half : Nat) : Nat → Nat → Nat → Nat → Nat
  | 0, _, _, m1 => m1
  | fuel + 1, b, picked, m1 =>
    if picked < half then
      if m.testBit b then pickAux m half fuel (b + 1) (picked + 1) (m1 ||| 2 ^ b)
      else pickAux m half fuel (b + 1) picked m1
    else m1

/-- `split_mask` from both monitors: `half = total_bits / 2`, `mask1` gets the
lowest `half` set bits, `mask2 = full_mask & ~mask1` (64-bit complement). -/
def split_mask (full_mask : Nat) : Nat × Nat :=
  let total_bits := countBits64 full_mask
  let half := total_bits / 2
  let m1 := pickAux full_mask half 64 0 0 0
  (m1, full_mask &&& (UINT64_MAX ^^^ m1))

/-! ### Sample-log miss-field parsing (awk block of the noisy detector) -/

/-- awk string-to-number coercion on a digit-prefixed field: value of the
leading run of decimal digits (`$4+0`). -/
def digitsVal (l : List Char) : Nat :=
  l.foldl (fun n c => n * 10 + (c.toNat - '0'.toNat)) 0

/-- Leading numeric prefix taken by awk's `+0` coercion. -/
def awkNum (l : List Char) : Nat :=
  digitsVal (l.takeWhile fun c => c.isDigit)

/-- `gsub(/c$/ , rep, fld)`: replace a trailing character `c` by `rep`. -/
def gsubTrail (l : List Char) (c : Char) (rep : List Char) : List Char :=
  match l.getLast? with
  | some d => if d = c then l.dropLast ++ rep else l
  | none => l

/-- The detector's miss-field expansion:
`gsub(/k$/,"000",$4); gsub(/m$/,"000000",$4)`. -/
def expandMiss (l : List Char) : List Char :=
  gsubTrail (gsubTrail l 'k' ['0', '0', '0']) 'm' ['0', '0', '0', '0', '0', '0']

/-- Full miss-field read: suffix expansion then numeric coercion (`$4+0`). -/
def parseMissField (s : String) : Nat :=
  awkNum (expandMiss s.toList)

/-- The MISSES field text written by the monitors each tick:
`fprintf(..., "%8PRIu64k", miss/1024)` — awk field splitting drops the
padding, leaving the decimal digits of `miss/1024` followed by `k`. -/
def writtenMissField (missDelta : Nat) : List Char :=
  (Nat.repr (missDelta / 1024)).toList ++ ['k']

/-! ### Contention scorer (awk END block of the noisy detector) -/

/-- One row of the aggregated CSV: `proc,mis_sum,llc_kb_sum,bw_sum`. -/
structure ScoreRow where
  name : String
  mis : ℚ
  llc : ℚ
  bw : ℚ

/-- `sum_mis` accumulated over all rows. -/
def sumMis (rows : List ScoreRow) : ℚ := (rows.map (·.mis)).sum

/-- `sum_llc` accumulated over all rows. -/
def sumLLC (rows : List ScoreRow) : ℚ := (rows.map (·.llc)).sum

/-- `sum_bw` accumulated over all rows. -/
def sumBW (rows : List ScoreRow) : ℚ := (rows.map (·.bw)).sum

/-- awk's division-by-zero floor `sum = sum ? sum : 1`. -/
def orOne (s : ℚ) : ℚ := if s = 0 then 1 else s

/-- `occ = (BW[p]/sum_bw) + (LLC[p]/sum_llc)`. -/
def occScore (rows : List ScoreRow) (r : ScoreRow) : ℚ :=
  r.bw / orOne (sumBW rows) + r.llc / orOne (sumLLC rows)

/-- `harm = MIS[p]/sum_mis`. -/
def harmScore (rows : List ScoreRow) (r : ScoreRow) : ℚ :=
  r.mis / orOne (sumMis rows)

/-- `noise = occ + K*harm`. -/
def noiseScore (K : ℚ) (rows : List ScoreRow) (r : ScoreRow) : ℚ :=
  occScore rows r + K * harmScore rows r

/-- The verdict loop: `maxN = -1; for each p: if (noise > maxN) {maxN = noise;
noisy = p}` — returns the final `(maxN, noisy)` pair (awk's uninitialised
`noisy` is the empty string). -/
def verdict (K : ℚ) (rows : List ScoreRow) : ℚ × String :=
  rows.foldl
    (fun acc r => if noiseScore K rows r > acc.1 then (noiseScore K rows r, r.name) else acc)
    (-1, "")

/-! ### Aggregator (tick fold).

Modelled from the spec: the repository's sources only aggregate per process
with ad-hoc shell loops; the Aggregator contract of §4.3 — a static
target→process map, an `"unmapped"` label for absent targets, and field-wise
summation of all targets of one process for one tick — is not a function in
`src/`, so it is embedded here following the spec's words. -/

/-- One target's measurement at one tick (spec §3 `CounterSample`). -/
structure CounterSample where
  target : Nat
  ipc : ℚ
  misses : ℚ
  occupancy : ℚ
  mbl : ℚ
  mbr : ℚ

/-- Per-process per-tick totals (spec §3 `ProcessSample`). -/
structure ProcessSample where
  ipc : ℚ
  misses : ℚ
  occupancy : ℚ
  mbl : ℚ
  mbr : ℚ

/-- The all-zero `ProcessSample`. -/
def emptyPS : ProcessSample := ⟨0, 0, 0, 0, 0⟩

/-- Field-wise accumulation of one `CounterSample` (IPC summed, per §4.3). -/
def addSample (ps : ProcessSample) (cs : CounterSample) : ProcessSample :=
  ⟨ps.ipc + cs.ipc, ps.misses + cs.misses, ps.occupancy + cs.occupancy,
   ps.mbl + cs.mbl, ps.mbr + cs.mbr⟩

/-- Modelled from the spec: resolve a target through the static map; targets
absent from the map are labeled `"unmapped"`. -/
def resolveProc (tmap : List (Nat × String)) (t : Nat) : String :=
  match tmap.lookup t with
  | some p => p
  | none => "unmapped"

/-- Add one sample under its label into the per-process association list. -/
def upsert : List (String × ProcessSample) → String → CounterSample →
    List (String × ProcessSample)
  | [], lbl, cs => [(lbl, addSample emptyPS cs)]
  | (p, ps) :: rest, lbl, cs =>
    if p = lbl then (p, addSample ps cs) :: rest
    else (p, ps) :: upsert rest lbl cs

/-- Modelled from the spec: one tick's aggregation fold (spec §4.3
`aggregate`). -/
def aggTick (tmap : List (Nat × String)) (samples : List CounterSample) :
    List (String × ProcessSample) :=
  samples.foldl (fun acc cs => upsert acc (resolveProc tmap cs.target) cs) []

/-- Total occupancy over the aggregated per-process samples. -/
def sumOccAgg (agg : List (String × ProcessSample)) : ℚ :=
  (agg.map (·.2.occupancy)).sum

/-- Occupancy credited to one process label by the aggregation. -/
def occOf (lbl : String) (agg : List (String × ProcessSample)) : ℚ :=
  match agg.lookup lbl with
  | some ps => ps.occupancy
  | none => 0

/-! ### Startup pipelines: CBM parsing, zero-mask check, split -/

/-- Value of one hexadecimal digit, as accepted by `strtoull(…, 16)`. -/
def hexDigitVal (c : Char) : Option Nat :=
  if '0' ≤ c ∧ c ≤ '9' then some (c.toNat - '0'.toNat)
  else if 'a' ≤ c ∧ c ≤ 'f' then some (c.toNat - 'a'.toNat + 10)
  else if 'A' ≤ c ∧ c ≤ 'F' then some (c.toNat - 'A'.toNat + 10)
  else none

/-- `strtoull(hexstr, &endp, 16)` followed by the `*endp == '\0'` check:
every character must be a hex digit (an empty string yields 0). -/
def parseHexList : List Char → Option Nat
  | [] => some 0
  | c :: rest =>
    match hexDigitVal c, parseHexList rest with
    | some d, some v => some (d * 16 ^ rest.length + v)
    | _, _ => none

/-- Skip a leading `0x` / `0X`, as both monitors do before hex parsing. -/
def stripHex0x : List Char → List Char
  | '0' :: c :: rest => if c = 'x' ∨ c = 'X' then rest else '0' :: c :: rest
  | l => l

/-- Startup pipeline of `cos.c`: width check on the prefix-stripped CBM text,
hex parse, fatal `total_ways == 0` check, then `split_mask`. -/
def cosStartup (cbm : List Char) : Except String (Nat × Nat) :=
  let hexdigits := stripHex0x cbm
  if hexdigits.length = 0 ∨ 16 < hexdigits.length then
    Except.error "Unexpected CBM"
  else
    match parseHexList hexdigits with
    | none => Except.error "Invalid CBM"
    | some full_mask =>
      if count_bits full_mask = 0 then
        Except.error "Full mask has zero bits set—unexpected"
      else Except.ok (split_mask full_mask)

/-- Startup pipeline of `split_cache_and_monitor.c`: ensure a `0x` prefix,
`strtoull(…, 0)` (64-bit, overflow is `ERANGE`), then `split_mask`
immediately — there is no zero-set-bits check on this path, and `.ok`
carries the two masks with which the schemata are then written. -/
def vmStartup (cbm : List Char) : Except String (Nat × Nat) :=
  match parseHexList (stripHex0x cbm) with
  | none => Except.error "Invalid CBM"
  | some full_mask =>
    if 2 ^ 64 ≤ full_mask then Except.error "Invalid CBM"
    else Except.ok (split_mask full_mask)

/-! ### Monitor phase model (`monitor_pids_pair`) -/

/-- The header line both output files receive right after `fopen(…, "w")`. -/
def monHeader : String :=
  "TIME                PID     IPC      MISSES   LLC[KB]  MBL[MB/s]  MBR[MB/s]"

/-- Result of one monitoring phase: the run's outcome and the lines each of
the two output files holds when the run ends (by completion or by `die`). -/
structure MonOutcome where
  result : Except String Unit
  file1 : List String
  file2 : List String

/-- The per-tick loop of `monitor_pids_pair`: each iteration sleeps, then
re-checks `/proc/<pid>` for both pids (`die("PID %d disappeared")` on
failure), then polls and appends one timestamp+data block per file.
`alive1 s` / `alive2 s` is the `/proc` liveness at tick `s`; `row1` / `row2`
are the (externally produced) counter lines. -/
def monLoop (alive1 alive2 : Nat → Bool) (row1 row2 : Nat → String)
    (pid1 pid2 : Nat) : Nat → Nat → List String → List String → MonOutcome
  | 0, _, f1, f2 => ⟨Except.ok (), f1, f2⟩
  | d + 1, s, f1, f2 =>
    if alive1 s = false then
      ⟨Except.error ("PID " ++ Nat.repr pid1 ++ " disappeared"), f1, f2⟩
    else if alive2 s = false then
      ⟨Except.error ("PID " ++ Nat.repr pid2 ++ " disappeared"), f1, f2⟩
    else
      monLoop alive1 alive2 row1 row2 pid1 pid2 d (s + 1)
        (f1 ++ [row1 s]) (f2 ++ [row2 s])

/-- `monitor_pids_pair`: initial `wait_for_pid` liveness checks (no files yet
on failure), then the two output files are created and given their header
line, then the tick loop runs. -/
def monitor_pids_pair (check1 check2 : Bool) (alive1 alive2 : Nat → Bool)
    (row1 row2 : Nat → String) (pid1 pid2 duration : Nat) : MonOutcome :=
  if check1 = false then
    ⟨Except.error ("PID " ++ Nat.repr pid1 ++ " not running"), [], []⟩
  else if check2 = false then
    ⟨Except.error ("PID " ++ Nat.repr pid2 ++ " not running"), [], []⟩
  else
    monLoop alive1 alive2 row1 row2 pid1 pid2 duration 0 [monHeader] [monHeader]

/-! ### Inter-phase teardown of the allocation-class state -/

/-- Host-global membership file of the default (unrestricted) class. -/
def DEFAULT_TASKS : String := "/sys/fs/resctrl/tasks"

/-- Membership file of allocation class COS1. -/
def COS1_TASKS : String := "/sys/fs/resctrl/COS1/tasks"

/-- Membership file of allocation class COS2. -/
def COS2_TASKS : String := "/sys/fs/resctrl/COS2/tasks"

/-- Directory of allocation class COS1. -/
def COS1_DIR : String := "/sys/fs/resctrl/COS1"

/-- Directory of allocation class COS2. -/
def COS2_DIR : String := "/sys/fs/resctrl/COS2"

/-- Host-state operations issued between the two monitoring phases. -/
inductive ResctrlOp where
  | appendTasks (path : String) (pid : Nat)
  | rmdir (path : String)
  | monitorPhase (out1 out2 : String)
deriving DecidableEq

/-- Operations `split_cache_and_monitor.c` performs between phase 1 and
phase 2: append both pids to the default tasks file, remove both class
directories, then start the normal-phase monitoring. -/
def vmInterPhase (pid1 pid2 : Nat) : List ResctrlOp :=
  [ResctrlOp.appendTasks DEFAULT_TASKS pid1,
   ResctrlOp.appendTasks DEFAULT_TASKS pid2,
   ResctrlOp.rmdir COS1_DIR,
   ResctrlOp.rmdir COS2_DIR,
   ResctrlOp.monitorPhase "VM1_normal.txt" "VM2_normal.txt"]

/-- Operations `cos.c` performs in its "CLEANUP & PHASE 2" block: it appends
the pids to `COS1/tasks` and `COS2/tasks` (while printing "Returned PID to
default group"), removes the class directories, then starts phase 2. -/
def cosInterPhase (pid1 pid2 : Nat) : List ResctrlOp :=
  [ResctrlOp.appendTasks COS1_TASKS pid1,
   ResctrlOp.appendTasks COS2_TASKS pid2,
   ResctrlOp.rmdir COS1_DIR,
   ResctrlOp.rmdir COS2_DIR,
   ResctrlOp.monitorPhase "VM1_normal.txt" "VM2_normal.txt"]

/-! ## Theorems. First: popcount equivalences for the bitmask partitioner. -/

theorem bitsBelow_succ (m b : Nat) :
    bitsBelow m (b + 1) = bitsBelow m b + (if m.testBit b then 1 else 0) := by
  simp [bitsBelow, List.range_succ, List.countP_append, List.countP_cons]

theorem bitsBelow_mono (m : Nat) {b b' : Nat} (h : b ≤ b') :
    bitsBelow m b ≤ bitsBelow m b' := by
  induction b' with
  | zero => simp_all [bitsBelow]
  | succ n ih =>
    rcases Nat.eq_or_lt_of_le h with rfl | hlt
    · exact Nat.le_refl _
    · have := ih (Nat.lt_succ_iff.mp hlt)
      rw [bitsBelow_succ]
      omega

theorem bitsBelow_div2 (m w : Nat) :
    bitsBelow m (w + 1) = bitsBelow (m / 2) w + (if m.testBit 0 then 1 else 0) := by
  unfold bitsBelow
  rw [List.range_succ_eq_map, List.countP_cons, List.countP_map]
  have hp : ((fun i => m.testBit i) ∘ Nat.succ) = fun i => (m / 2).testBit i := by
    funext i
    exact Nat.testBit_succ m i
  rw [hp]

theorem popcount_two_mul (y : Nat) : popcount (2 * y) = popcount y := by
  by_cases h : y = 0
  · subst h
    rfl
  · rw [popcount]
    have h2 : ¬ (2 * y = 0) := by omega
    simp only [h2, dite_false]
    have hd : 2 * y / 2 = y := by omega
    have hm : 2 * y % 2 = 0 := by omega
    rw [hd, hm]
    omega

theorem popcount_two_mul_add_one (y : Nat) : popcount (2 * y + 1) = popcount y + 1 := by
  rw [popcount]
  have h2 : ¬ (2 * y + 1 = 0) := by omega
  simp only [h2, dite_false]
  have hd : (2 * y + 1) / 2 = y := by omega
  have hm : (2 * y + 1) % 2 = 1 := by omega
  rw [hd, hm]

theorem popcount_eq_bitsBelow : ∀ w m, m < 2 ^ w → popcount m = bitsBelow m w := by
  intro w
  induction w with
  | zero =>
    intro m hm
    have : m = 0 := by omega
    subst this
    rw [popcount]
    simp [bitsBelow]
  | succ n ih =>
    intro m hm
    by_cases h0 : m = 0
    · subst h0
      rw [popcount]
      simp [bitsBelow, Nat.zero_testBit]
    · rw [popcount]
      simp only [h0, dite_false]
      rw [bitsBelow_div2]
      have hdiv : m / 2 < 2 ^ n := by
        have : 2 ^ (n + 1) = 2 ^ n * 2 := by ring
        omega
      rw [ih (m / 2) hdiv]
      have hbit : (if m.testBit 0 then 1 else 0) = m % 2 := by
        rcases Nat.mod_two_eq_zero_or_one m with h | h <;> simp [Nat.testBit_zero, h]
      omega

theorem testBit_two_mul_zero (n : Nat) : (2 * n).testBit 0 = false := by
  simp [Nat.testBit_zero, Nat.mul_mod_right]

theorem testBit_two_mul_add_one_zero (n : Nat) : (2 * n + 1).testBit 0 = true := by
  simp [Nat.testBit_zero, Nat.mul_add_mod]

theorem testBit_two_mul_succ (n i : Nat) : (2 * n).testBit (i + 1) = n.testBit i := by
  rw [Nat.testBit_succ]
  congr 1
  omega

theorem testBit_two_mul_add_one_succ (n i : Nat) :
    (2 * n + 1).testBit (i + 1) = n.testBit i := by
  rw [Nat.testBit_succ]
  congr 1
  omega

theorem and_odd_pred (q : Nat) : (2 * q + 1) &&& (2 * q) = 2 * q := by
  apply Nat.eq_of_testBit_eq
  intro i
  cases i with
  | zero => simp [Nat.testBit_and, testBit_two_mul_zero, testBit_two_mul_add_one_zero]
  | succ i => simp [Nat.testBit_and, testBit_two_mul_succ, testBit_two_mul_add_one_succ]

theorem and_even_pred (q : Nat) (hq : q ≠ 0) :
    (2 * q) &&& (2 * q - 1) = 2 * (q &&& (q - 1)) := by
  have h : 2 * q - 1 = 2 * (q - 1) + 1 := by omega
  rw [h]
  apply Nat.eq_of_testBit_eq
  intro i
  cases i with
  | zero => simp [Nat.testBit_and, testBit_two_mul_zero, testBit_two_mul_add_one_zero]
  | succ i => simp [Nat.testBit_and, testBit_two_mul_succ, testBit_two_mul_add_one_succ]

theorem count_bits_eq_popcount (x : Nat) : count_bits x = popcount x := by
  induction x using Nat.strong_induction_on with
  | _ x ih =>
    by_cases h0 : x = 0
    · subst h0
      rw [count_bits, popcount]
      simp
    · rw [count_bits]
      simp only [h0, dite_false]
      rcases Nat.mod_two_eq_zero_or_one x with hx | hx
      · obtain ⟨q, rfl⟩ : ∃ q, x = 2 * q := ⟨x / 2, by omega⟩
        have hq : q ≠ 0 := by omega
        have hsub : 2 * q - 1 = 2 * q - 1 := rfl
        rw [and_even_pred q hq]
        have hle : q &&& (q - 1) ≤ q - 1 := Nat.and_le_right
        have h1 : count_bits (2 * (q &&& (q - 1))) = popcount (2 * (q &&& (q - 1))) :=
          ih _ (by omega)
        have hq1 : count_bits q = popcount q := ih q (by omega)
        have hq2 : count_bits (q &&& (q - 1)) = popcount (q &&& (q - 1)) :=
          ih _ (by omega)
        have hq3 : count_bits q = count_bits (q &&& (q - 1)) + 1 := by
          rw [count_bits]
          simp only [hq, dite_false]
        rw [h1, popcount_two_mul, popcount_two_mul]
        omega
      · obtain ⟨q, rfl⟩ : ∃ q, x = 2 * q + 1 := ⟨x / 2, by omega⟩
        have hsub : 2 * q + 1 - 1 = 2 * q := by omega
        rw [hsub, and_odd_pred]
        have h1 : count_bits (2 * q) = popcount (2 * q) := ih _ (by omega)
        rw [h1, popcount_two_mul, popcount_two_mul_add_one]

theorem pickAux_spec (m half : Nat) :
    ∀ fuel b picked m1,
      picked = min half (bitsBelow m b) →
      (∀ j, m1.testBit j = (decide (j < b) && (m.testBit j && decide (bitsBelow m j < half)))) →
      ∀ j, (pickAux m half fuel b picked m1).testBit j =
        (decide (j < b + fuel) && (m.testBit j && decide (bitsBelow m j < half))) := by
  intro fuel
  induction fuel with
  | zero =>
    intro b picked m1 hp hm j
    simpa using hm j
  | succ fuel ih =>
    intro b picked m1 hp hm j
    rw [pickAux]
    by_cases hpick : picked < half
    · rw [if_pos hpick]
      have hblt : bitsBelow m b < half ∧ picked = bitsBelow m b := by omega
      by_cases hbit : m.testBit b = true
      · rw [if_pos hbit]
        have hp' : picked + 1 = min half (bitsBelow m (b + 1)) := by
          rw [bitsBelow_succ]
          simp only [hbit]
          simp only [if_true]
          omega
        have hm' : ∀ j, (m1 ||| 2 ^ b).testBit j =
            (decide (j < b + 1) && (m.testBit j && decide (bitsBelow m j < half))) := by
          intro j
          rw [Nat.testBit_or, hm j, Nat.testBit_two_pow]
          by_cases hj : j < b
          · simp [hj, Nat.lt_succ_of_lt hj, (show ¬ b = j by omega)]
          · by_cases hj2 : j = b
            · subst hj2
              simp [hbit, hblt.1]
            · simp [hj, hj2, (show ¬ j < b + 1 by omega), (show ¬ b = j by omega)]
        have := ih (b + 1) (picked + 1) (m1 ||| 2 ^ b) hp' hm' j
        rw [this]
        have harith : b + 1 + fuel = b + (fuel + 1) := by omega
        rw [harith]
      · rw [if_neg hbit]
        have hbitf : m.testBit b = false := by
          revert hbit
          cases m.testBit b <;> simp
        have hp' : picked = min half (bitsBelow m (b + 1)) := by
          rw [bitsBelow_succ]
          simp [hbitf]
          omega
        have hm' : ∀ j, m1.testBit j =
            (decide (j < b + 1) && (m.testBit j && decide (bitsBelow m j < half))) := by
          intro j
          rw [hm j]
          by_cases hj : j < b
          · simp [hj, Nat.lt_succ_of_lt hj]
          · by_cases hj2 : j = b
            · subst hj2
              simp [hbitf]
            · simp [hj, (show ¬ j < b + 1 by omega)]
        have := ih (b + 1) picked m1 hp' hm' j
        rw [this]
        have harith : b + 1 + fuel = b + (fuel + 1) := by omega
        rw [harith]
    · rw [if_neg hpick]
      have hhalf : half ≤ bitsBelow m b := by omega
      rw [hm j]
      by_cases hj : j < b
      · simp [hj, (show j < b + (fuel + 1) by omega)]
      · have hns : ¬ (bitsBelow m j < half) := by
          have := bitsBelow_mono m (show b ≤ j by omega)
          omega
        simp [hj, hns]

theorem split_mask_fst_testBit (m j : Nat) :
    (split_mask m).1.testBit j =
      (decide (j < 64) && (m.testBit j && decide (bitsBelow m j < countBits64 m / 2))) := by
  have h := pickAux_spec m (countBits64 m / 2) 64 0 0 0
    (by simp [bitsBelow]) (fun j => by simp [Nat.zero_testBit]) j
  simpa [split_mask] using h

theorem split_mask_snd_eq (m : Nat) :
    (split_mask m).2 = m &&& (UINT64_MAX ^^^ (split_mask m).1) := rfl

theorem countP_bitsBelow_lt (m half : Nat) : ∀ b,
    (List.range b).countP (fun j => m.testBit j && decide (bitsBelow m j < half)) =
      min half (bitsBelow m b) := by
  intro b
  induction b with
  | zero => simp [bitsBelow]
  | succ b ih =>
    rw [List.range_succ, List.countP_append, ih, bitsBelow_succ]
    by_cases hbit : m.testBit b = true
    · by_cases hlt : bitsBelow m b < half
      · simp [List.countP_cons, hbit, hlt]
        omega
      · simp [List.countP_cons, hbit, hlt]
        omega
    · have hbitf : m.testBit b = false := by
        revert hbit
        cases m.testBit b <;> simp
      simp [List.countP_cons, hbitf]

theorem testBit_high_false {m : Nat} (hM : m < 2 ^ 64) {j : Nat} (hj : 64 ≤ j) :
    m.testBit j = false :=
  Nat.testBit_lt_two_pow (Nat.lt_of_lt_of_le hM (Nat.pow_le_pow_right (by omega) hj))

theorem split_mask_fst_lt (m : Nat) : (split_mask m).1 < 2 ^ 64 := by
  by_contra h
  push_neg at h
  obtain ⟨i, hi, hbit⟩ := Nat.ge_two_pow_implies_high_bit_true h
  rw [split_mask_fst_testBit] at hbit
  simp [show ¬ i < 64 by omega] at hbit

theorem count_bits_eq_countBits64 {m : Nat} (h : m < 2 ^ 64) :
    count_bits m = countBits64 m := by
  rw [count_bits_eq_popcount]
  exact popcount_eq_bitsBelow 64 m h

theorem UINT64_MAX_testBit (j : Nat) : UINT64_MAX.testBit j = decide (j < 64) := by
  rw [UINT64_MAX]
  exact Nat.testBit_two_pow_sub_one 64 j

/-- C1: for every nonzero 64-bit cache mask `M`, `split_mask M` returns masks
`(a, b)` with `a ||| b = M`, `a &&& b = 0`, `popcount a = popcount M / 2`
(floor), where `a` consists of exactly the lowest `popcount M / 2` set bits of
`M` (a bit of `M` lands in `a` iff fewer than `popcount M / 2` set bits of `M`
lie below it); a single-bit mask yields an empty `a` and `b = M`. -/
theorem split_mask_correct (M : Nat) (hM : M < 2 ^ 64) (hnz : M ≠ 0) :
    (split_mask M).1 ||| (split_mask M).2 = M ∧
    (split_mask M).1 &&& (split_mask M).2 = 0 ∧
    count_bits (split_mask M).1 = count_bits M / 2 ∧
    (∀ j, (split_mask M).1.testBit j =
      (M.testBit j && decide (bitsBelow M j < count_bits M / 2))) ∧
    (count_bits M = 1 → (split_mask M).1 = 0 ∧ (split_mask M).2 = M) := by
  have hcnt : count_bits M = countBits64 M := count_bits_eq_countBits64 hM
  have hchar := split_mask_fst_testBit M
  have hsnd := split_mask_snd_eq M
  have hunion : (split_mask M).1 ||| (split_mask M).2 = M := by
    apply Nat.eq_of_testBit_eq
    intro j
    rw [Nat.testBit_or, hsnd, Nat.testBit_and, Nat.testBit_xor, UINT64_MAX_testBit, hchar j]
    by_cases hj : j < 64
    · cases hMj : M.testBit j <;>
        cases hcj : decide (bitsBelow M j < countBits64 M / 2) <;> simp [hj, hMj, hcj]
    · have hMj : M.testBit j = false := testBit_high_false hM (by omega)
      simp [hj, hMj]
  have hdisj : (split_mask M).1 &&& (split_mask M).2 = 0 := by
    apply Nat.eq_of_testBit_eq
    intro j
    rw [Nat.testBit_and, hsnd, Nat.testBit_and, Nat.testBit_xor, UINT64_MAX_testBit, hchar j,
      Nat.zero_testBit]
    by_cases hj : j < 64
    · cases hMj : M.testBit j <;>
        cases hcj : decide (bitsBelow M j < countBits64 M / 2) <;> simp [hj, hMj, hcj]
    · have hMj : M.testBit j = false := testBit_high_false hM (by omega)
      simp [hj, hMj]
  have hchar' : ∀ j, (split_mask M).1.testBit j =
      (M.testBit j && decide (bitsBelow M j < count_bits M / 2)) := by
    intro j
    rw [hchar j, hcnt]
    by_cases hj : j < 64
    · simp [hj]
    · have hMj : M.testBit j = false := testBit_high_false hM (by omega)
      simp [hj, hMj]
  have hpop : count_bits (split_mask M).1 = count_bits M / 2 := by
    rw [count_bits_eq_countBits64 (split_mask_fst_lt M)]
    show bitsBelow (split_mask M).1 64 = count_bits M / 2
    unfold bitsBelow
    rw [List.countP_congr (fun j hj => by rw [hchar' j])]
    rw [countP_bitsBelow_lt M (count_bits M / 2) 64]
    have htot : bitsBelow M 64 = count_bits M := by rw [hcnt]; rfl
    rw [htot]
    omega
  refine ⟨hunion, hdisj, hpop, hchar', ?_⟩
  intro hone
  have ha : (split_mask M).1 = 0 := by
    apply Nat.eq_of_testBit_eq
    intro j
    rw [hchar' j, hone, Nat.zero_testBit]
    simp
  refine ⟨ha, ?_⟩
  have := hunion
  rw [ha, Nat.zero_or] at this
  exact this

/-- Witness for C1 at the concrete mask `0xB = 1011₂`: the split is
`(0x1, 0xA)`. -/
theorem split_mask_correct_witness :
    (11 : Nat) < 2 ^ 64 ∧ (11 : Nat) ≠ 0 ∧
    ((split_mask 11).1 ||| (split_mask 11).2 = 11 ∧
     (split_mask 11).1 &&& (split_mask 11).2 = 0 ∧
     count_bits (split_mask 11).1 = count_bits 11 / 2 ∧
     (∀ j, (split_mask 11).1.testBit j =
       ((11 : Nat).testBit j && decide (bitsBelow 11 j < count_bits 11 / 2))) ∧
     (count_bits 11 = 1 → (split_mask 11).1 = 0 ∧ (split_mask 11).2 = 11)) :=
  ⟨by norm_num, by norm_num,
   split_mask_correct 11 (by norm_num) (by norm_num)⟩

/-! ## Decimal text round-trip for the MISSES field -/

theorem foldlDigits_init (l : List Char) : ∀ n : Nat,
    List.foldl (fun a c => a * 10 + (c.toNat - '0'.toNat)) n l
      = n * 10 ^ l.length + List.foldl (fun a c => a * 10 + (c.toNat - '0'.toNat)) 0 l := by
  induction l with
  | nil => intro n; simp
  | cons c t ih =>
    intro n
    rw [List.foldl_cons, List.foldl_cons, ih (n * 10 + (c.toNat - '0'.toNat)),
      ih (0 * 10 + (c.toNat - '0'.toNat))]
    simp [List.length_cons, pow_succ]
    ring

theorem digitsVal_append (a b : List Char) :
    digitsVal (a ++ b) = digitsVal a * 10 ^ b.length + digitsVal b := by
  unfold digitsVal
  rw [List.foldl_append, foldlDigits_init]

theorem digitsVal_cons (c : Char) (t : List Char) :
    digitsVal (c :: t) = (c.toNat - '0'.toNat) * 10 ^ t.length + digitsVal t := by
  unfold digitsVal
  rw [List.foldl_cons, foldlDigits_init]
  simp

theorem digitChar_isDigit {k : Nat} (h : k < 10) : (Nat.digitChar k).isDigit = true := by
  interval_cases k <;> decide

theorem digitChar_val {k : Nat} (h : k < 10) : (Nat.digitChar k).toNat - '0'.toNat = k := by
  interval_cases k <;> decide

theorem toDigitsCore_val (n : Nat) : ∀ fuel ds, n < fuel →
    digitsVal (Nat.toDigitsCore 10 fuel n ds) = n * 10 ^ ds.length + digitsVal ds := by
  induction n using Nat.strong_induction_on with
  | _ n ih =>
    intro fuel ds hfuel
    match fuel with
    | 0 => omega
    | fuel + 1 =>
      simp only [Nat.toDigitsCore]
      by_cases hq : n / 10 = 0
      · simp only [hq, if_true]
        rw [digitsVal_cons, digitChar_val (by omega)]
        have hmod : n % 10 = n := by omega
        rw [hmod]
      · simp only [hq, if_false]
        have hlt : n / 10 < n := by omega
        rw [ih (n / 10) hlt fuel (Nat.digitChar (n % 10) :: ds) (by omega)]
        rw [digitsVal_cons, digitChar_val (by omega)]
        simp only [List.length_cons]
        have hP : (10 : Nat) ^ (ds.length + 1) = 10 ^ ds.length * 10 := pow_succ 10 ds.length
        rw [hP]
        have key : n / 10 * (10 ^ ds.length * 10) + n % 10 * 10 ^ ds.length
            = n * 10 ^ ds.length := by
          have h := Nat.div_add_mod n 10
          calc n / 10 * (10 ^ ds.length * 10) + n % 10 * 10 ^ ds.length
              = (10 * (n / 10) + n % 10) * 10 ^ ds.length := by ring
            _ = n * 10 ^ ds.length := by rw [h]
        omega

theorem toDigitsCore_digits (n : Nat) : ∀ fuel ds, n < fuel →
    (∀ c ∈ ds, c.isDigit = true) →
    ∀ c ∈ Nat.toDigitsCore 10 fuel n ds, c.isDigit = true := by
  induction n using Nat.strong_induction_on with
  | _ n ih =>
    intro fuel ds hfuel hds
    match fuel with
    | 0 => omega
    | fuel + 1 =>
      simp only [Nat.toDigitsCore]
      by_cases hq : n / 10 = 0
      · simp only [hq, if_true]
        intro c hc
        rcases List.mem_cons.mp hc with rfl | hc
        · exact digitChar_isDigit (by omega)
        · exact hds c hc
      · simp only [hq, if_false]
        refine ih (n / 10) (by omega) fuel (Nat.digitChar (n % 10) :: ds) (by omega) ?_
        intro c hc
        rcases List.mem_cons.mp hc with rfl | hc
        · exact digitChar_isDigit (by omega)
        · exact hds c hc

theorem repr_toList_eq (n : Nat) : (Nat.repr n).toList = Nat.toDigitsCore 10 (n + 1) n [] :=
  rfl

theorem digitsVal_repr (n : Nat) : digitsVal (Nat.repr n).toList = n := by
  rw [repr_toList_eq, toDigitsCore_val n (n + 1) [] (Nat.lt_succ_self n)]
  simp [digitsVal]

theorem repr_toList_digits (n : Nat) : ∀ c ∈ (Nat.repr n).toList, c.isDigit = true := by
  rw [repr_toList_eq]
  exact toDigitsCore_digits n (n + 1) [] (Nat.lt_succ_self n) (by simp)

theorem takeWhile_append_all {p : Char → Bool} :
    ∀ (l m : List Char), (∀ c ∈ l, p c = true) →
      (l ++ m).takeWhile p = l ++ m.takeWhile p := by
  intro l m h
  induction l with
  | nil => simp
  | cons c t ih =>
    have hc : p c = true := h c (List.mem_cons_self c t)
    simp only [List.cons_append, List.takeWhile_cons, hc, if_true]
    rw [ih (fun d hd => h d (List.mem_cons_of_mem c hd))]

theorem gsubTrail_concat (l : List Char) (c : Char) (rep : List Char) :
    gsubTrail (l ++ [c]) c rep = l ++ rep := by
  unfold gsubTrail
  rw [List.getLast?_concat]
  simp

theorem gsubTrail_no_match (l : List Char) (c : Char) (rep : List Char)
    (h : ∀ d, l.getLast? = some d → d ≠ c) : gsubTrail l c rep = l := by
  unfold gsubTrail
  cases hl : l.getLast? with
  | none => rfl
  | some d => simp [h d hl]

theorem gsubTrail_concat_ne (l : List Char) (b c : Char) (rep : List Char) (hbc : b ≠ c) :
    gsubTrail (l ++ [b]) c rep = l ++ [b] := by
  apply gsubTrail_no_match
  intro d hd
  rw [List.getLast?_concat] at hd
  cases hd
  exact hbc

theorem isDigit_ne {c t : Char} (hc : c.isDigit = true) (ht : t.isDigit = false) : c ≠ t := by
  intro h
  subst h
  rw [hc] at ht
  cases ht

theorem expandMiss_digits (l : List Char) (h : ∀ c ∈ l, c.isDigit = true) :
    expandMiss l = l := by
  unfold expandMiss
  rw [gsubTrail_no_match l 'k' _ (fun d hd =>
    isDigit_ne (h d (List.mem_of_getLast?_eq_some hd)) (by decide))]
  exact gsubTrail_no_match l 'm' _ (fun d hd =>
    isDigit_ne (h d (List.mem_of_getLast?_eq_some hd)) (by decide))

theorem awkNum_digits (l : List Char) (h : ∀ c ∈ l, c.isDigit = true) :
    awkNum l = digitsVal l := by
  unfold awkNum
  have h2 := takeWhile_append_all l [] h
  simp only [List.append_nil, List.takeWhile_nil] at h2
  rw [h2]

theorem awkNum_digits_append_nondigit (l : List Char) (c : Char)
    (h : ∀ d ∈ l, d.isDigit = true) (hc : c.isDigit = false) :
    awkNum (l ++ [c]) = digitsVal l := by
  unfold awkNum
  rw [takeWhile_append_all l [c] h]
  have hct : List.takeWhile (fun c => c.isDigit) [c] = [] := by
    simp [List.takeWhile_cons, hc]
  rw [hct]
  simp [digitsVal]

/-- C10: for every tick the monitors write the raw per-tick miss delta
integer-divided by 1024 followed by a `k` suffix; the detector's documented
suffix expansion (×1000) therefore reconstructs `(raw / 1024) * 1000`, not
`raw`, and for every raw delta ≥ 1024 the reconstructed value strictly
understates the true miss count — the write/parse round-trip is not the
identity. -/
theorem written_miss_roundtrip (raw : Nat) :
    awkNum (expandMiss (writtenMissField raw)) = raw / 1024 * 1000 ∧
    (1024 ≤ raw → raw / 1024 * 1000 < raw) := by
  constructor
  · unfold writtenMissField expandMiss
    rw [gsubTrail_concat]
    have hsplit : (Nat.repr (raw / 1024)).toList ++ ['0', '0', '0']
        = ((Nat.repr (raw / 1024)).toList ++ ['0', '0']) ++ ['0'] := by simp
    rw [hsplit, gsubTrail_concat_ne _ _ _ _ (by decide), ← hsplit]
    unfold awkNum
    rw [takeWhile_append_all _ ['0', '0', '0'] (repr_toList_digits (raw / 1024))]
    have h000 : List.takeWhile (fun c => c.isDigit) ['0', '0', '0'] = ['0', '0', '0'] := by
      decide
    rw [h000, digitsVal_append, digitsVal_repr]
    have hz : digitsVal ['0', '0', '0'] = 0 := by decide
    rw [hz]
    norm_num
  · intro h
    omega

/-- Witness for C10 at `raw = 5000`: the field written is `"4k"`, the
detector reconstructs `4000 < 5000`. -/
theorem written_miss_roundtrip_witness :
    (1024 ≤ 5000 ∧ awkNum (expandMiss (writtenMissField 5000)) = 5000 / 1024 * 1000) ∧
    5000 / 1024 * 1000 < 5000 :=
  ⟨⟨by norm_num, (written_miss_roundtrip 5000).1⟩,
   (written_miss_roundtrip 5000).2 (by norm_num)⟩

/-- C6 counterexample: the detector's `gsub(/k$/,…); gsub(/m$/,…)` matches
only lowercase suffixes, so the uppercase field `"12K"` is not expanded and
coerces to `12`, not `12000`. -/
theorem miss_suffix_uppercase_counterexample :
    parseMissField "12K" = 12 ∧ parseMissField "12K" ≠ 12000 := by
  constructor
  · rfl
  · decide

/-- C6 (amended): suffix expansion before arithmetic holds for the lowercase
suffixes `k` (×1000) and `m` (×1,000,000) only — `"12k"` parses to 12000 and
`"3m"` to 3000000, an unsuffixed digit field parses as its plain value, while
uppercase `K` / `M` are not expanded: those fields parse as just their
leading digits. -/
theorem miss_suffix_expansion (l : List Char) (h : ∀ c ∈ l, c.isDigit = true) :
    parseMissField "12k" = 12000 ∧
    parseMissField "3m" = 3000000 ∧
    awkNum (expandMiss (l ++ ['k'])) = digitsVal l * 1000 ∧
    awkNum (expandMiss (l ++ ['m'])) = digitsVal l * 1000000 ∧
    awkNum (expandMiss l) = digitsVal l ∧
    awkNum (expandMiss (l ++ ['K'])) = digitsVal l ∧
    awkNum (expandMiss (l ++ ['M'])) = digitsVal l := by
  have hdig3 : ∀ c ∈ l ++ ['0', '0', '0'], c.isDigit = true := by
    intro c hc
    rcases List.mem_append.mp hc with hc | hc
    · exact h c hc
    · fin_cases hc <;> decide
  have hdig6 : ∀ c ∈ l ++ ['0', '0', '0', '0', '0', '0'], c.isDigit = true := by
    intro c hc
    rcases List.mem_append.mp hc with hc | hc
    · exact h c hc
    · fin_cases hc <;> decide
  refine ⟨by rfl, by rfl, ?_, ?_, ?_, ?_, ?_⟩
  · unfold expandMiss
    rw [gsubTrail_concat]
    have hsplit : l ++ ['0', '0', '0'] = (l ++ ['0', '0']) ++ ['0'] := by simp
    rw [hsplit, gsubTrail_concat_ne _ _ _ _ (by decide), ← hsplit]
    rw [awkNum_digits _ hdig3, digitsVal_append]
    have hz : digitsVal ['0', '0', '0'] = 0 := by decide
    rw [hz]
    norm_num
  · unfold expandMiss
    rw [gsubTrail_concat_ne _ _ _ _ (by decide), gsubTrail_concat]
    rw [awkNum_digits _ hdig6, digitsVal_append]
    have hz : digitsVal ['0', '0', '0', '0', '0', '0'] = 0 := by decide
    rw [hz]
    norm_num
  · rw [expandMiss_digits l h, awkNum_digits l h]
  · unfold expandMiss
    rw [gsubTrail_concat_ne _ _ _ _ (by decide), gsubTrail_concat_ne _ _ _ _ (by decide)]
    exact awkNum_digits_append_nondigit l 'K' h (by decide)
  · unfold expandMiss
    rw [gsubTrail_concat_ne _ _ _ _ (by decide), gsubTrail_concat_ne _ _ _ _ (by decide)]
    exact awkNum_digits_append_nondigit l 'M' h (by decide)

/-- Witness for the amended C6 at the digit field `['1','2']` (value 12). -/
theorem miss_suffix_expansion_witness :
    (∀ c ∈ ['1', '2'], c.isDigit = true) ∧
    (parseMissField "12k" = 12000 ∧
     parseMissField "3m" = 3000000 ∧
     awkNum (expandMiss (['1', '2'] ++ ['k'])) = digitsVal ['1', '2'] * 1000 ∧
     awkNum (expandMiss (['1', '2'] ++ ['m'])) = digitsVal ['1', '2'] * 1000000 ∧
     awkNum (expandMiss ['1', '2']) = digitsVal ['1', '2'] ∧
     awkNum (expandMiss (['1', '2'] ++ ['K'])) = digitsVal ['1', '2'] ∧
     awkNum (expandMiss (['1', '2'] ++ ['M'])) = digitsVal ['1', '2']) :=
  ⟨by decide, miss_suffix_expansion ['1', '2'] (by decide)⟩

/-! ## Contention-scorer theorems -/

theorem orOne_ne_zero (s : ℚ) : orOne s ≠ 0 := by
  by_cases hs : s = 0 <;> simp [orOne, hs]

theorem orOne_pos {s : ℚ} (hs : 0 ≤ s) : 0 < orOne s := by
  by_cases h0 : s = 0
  · simp [orOne, h0]
  · rw [orOne, if_neg h0]
    exact lt_of_le_of_ne hs (Ne.symm h0)

theorem sumBW_nonneg (rows : List ScoreRow) (h : ∀ r ∈ rows, 0 ≤ r.bw) :
    0 ≤ sumBW rows := by
  apply List.sum_nonneg
  intro x hx
  obtain ⟨r, hr, rfl⟩ := List.mem_map.mp hx
  exact h r hr

theorem sumLLC_nonneg (rows : List ScoreRow) (h : ∀ r ∈ rows, 0 ≤ r.llc) :
    0 ≤ sumLLC rows := by
  apply List.sum_nonneg
  intro x hx
  obtain ⟨r, hr, rfl⟩ := List.mem_map.mp hx
  exact h r hr

theorem sumMis_nonneg (rows : List ScoreRow) (h : ∀ r ∈ rows, 0 ≤ r.mis) :
    0 ≤ sumMis rows := by
  apply List.sum_nonneg
  intro x hx
  obtain ⟨r, hr, rfl⟩ := List.mem_map.mp hx
  exact h r hr

theorem noiseScore_nonneg (K : ℚ) (rows : List ScoreRow) (r : ScoreRow) (hK : 0 ≤ K)
    (hr : 0 ≤ r.mis ∧ 0 ≤ r.llc ∧ 0 ≤ r.bw)
    (hrows : ∀ x ∈ rows, 0 ≤ x.mis ∧ 0 ≤ x.llc ∧ 0 ≤ x.bw) :
    0 ≤ noiseScore K rows r := by
  have hbw := orOne_pos (sumBW_nonneg rows fun x hx => (hrows x hx).2.2)
  have hllc := orOne_pos (sumLLC_nonneg rows fun x hx => (hrows x hx).2.1)
  have hmis := orOne_pos (sumMis_nonneg rows fun x hx => (hrows x hx).1)
  unfold noiseScore occScore harmScore
  have h1 : 0 ≤ r.bw / orOne (sumBW rows) := div_nonneg hr.2.2 (le_of_lt hbw)
  have h2 : 0 ≤ r.llc / orOne (sumLLC rows) := div_nonneg hr.2.1 (le_of_lt hllc)
  have h3 : 0 ≤ r.mis / orOne (sumMis rows) := div_nonneg hr.1 (le_of_lt hmis)
  have h4 : 0 ≤ K * (r.mis / orOne (sumMis rows)) := mul_nonneg hK h3
  linarith

/-- C4: the scorer substitutes 1 for any zero tick-wide sum before dividing
(`sum = sum ? sum : 1`), so its divisors are never zero; on a tick where
every process has zero bandwidth and zero occupancy, both floors fire and
every process's `Occ_Score` is exactly 0, not NaN or undefined. -/
theorem scorer_zero_sum_floor (rows : List ScoreRow)
    (h : ∀ r ∈ rows, r.bw = 0 ∧ r.llc = 0) :
    (∀ s : ℚ, orOne s ≠ 0) ∧
    orOne (sumBW rows) = 1 ∧
    orOne (sumLLC rows) = 1 ∧
    (∀ r ∈ rows, occScore rows r = 0) := by
  have hbw : sumBW rows = 0 := by
    apply List.sum_eq_zero
    intro x hx
    obtain ⟨r, hr, rfl⟩ := List.mem_map.mp hx
    exact (h r hr).1
  have hllc : sumLLC rows = 0 := by
    apply List.sum_eq_zero
    intro x hx
    obtain ⟨r, hr, rfl⟩ := List.mem_map.mp hx
    exact (h r hr).2
  refine ⟨orOne_ne_zero, ?_, ?_, ?_⟩
  · simp [orOne, hbw]
  · simp [orOne, hllc]
  · intro r hr
    unfold occScore
    rw [hbw, hllc, (h r hr).1, (h r hr).2]
    simp

/-- Witness for C4 on a one-process tick with misses 5, zero bandwidth and
zero occupancy. -/
theorem scorer_zero_sum_floor_witness :
    (∀ r ∈ [ScoreRow.mk "a" 5 0 0], r.bw = 0 ∧ r.llc = 0) ∧
    ((∀ s : ℚ, orOne s ≠ 0) ∧
     orOne (sumBW [ScoreRow.mk "a" 5 0 0]) = 1 ∧
     orOne (sumLLC [ScoreRow.mk "a" 5 0 0]) = 1 ∧
     (∀ r ∈ [ScoreRow.mk "a" 5 0 0], occScore [ScoreRow.mk "a" 5 0 0] r = 0)) :=
  ⟨by intro r hr; simp at hr; subst hr; exact ⟨rfl, rfl⟩,
   scorer_zero_sum_floor [ScoreRow.mk "a" 5 0 0]
     (by intro r hr; simp at hr; subst hr; exact ⟨rfl, rfl⟩)⟩

theorem foldl_argmax (f : ScoreRow → ℚ) :
    ∀ (l : List ScoreRow) (acc : ℚ × String),
      ((∀ r ∈ l, f r ≤ acc.1) ∧
        l.foldl (fun a r => if f r > a.1 then (f r, r.name) else a) acc = acc) ∨
      (∃ i, ∃ hi : i < l.length,
        l.foldl (fun a r => if f r > a.1 then (f r, r.name) else a) acc
          = (f (l.get ⟨i, hi⟩), (l.get ⟨i, hi⟩).name) ∧
        acc.1 < f (l.get ⟨i, hi⟩) ∧
        (∀ j, ∀ hj : j < l.length, f (l.get ⟨j, hj⟩) ≤ f (l.get ⟨i, hi⟩)) ∧
        (∀ j, ∀ hj : j < l.length, j < i → f (l.get ⟨j, hj⟩) < f (l.get ⟨i, hi⟩))) := by
  intro l
  induction l with
  | nil =>
    intro acc
    left
    exact ⟨by simp, rfl⟩
  | cons r t ih =>
    intro acc
    rw [List.foldl_cons]
    by_cases hr : f r > acc.1
    · rw [if_pos hr]
      rcases ih (f r, r.name) with ⟨hb, he⟩ | ⟨i', hi', he, hacc, hmax, hfirst⟩
      · right
        refine ⟨0, by simp, ?_, ?_, ?_, ?_⟩
        · rw [he]
          rfl
        · exact hr
        · intro j hj
          cases j with
          | zero => exact le_refl _
          | succ j =>
            have hj' : j < t.length := by
              simp only [List.length_cons] at hj
              omega
            exact hb _ (List.get_mem t j hj')
        · intro j hj hj0
          omega
      · right
        have hi1 : i' + 1 < (r :: t).length := by
          simp only [List.length_cons]
          omega
        refine ⟨i' + 1, hi1, ?_, ?_, ?_, ?_⟩
        · exact he
        · exact lt_trans hr hacc
        · intro j hj
          cases j with
          | zero => exact le_of_lt hacc
          | succ j =>
            have hj' : j < t.length := by
              simp only [List.length_cons] at hj
              omega
            exact hmax j hj'
        · intro j hj hji
          cases j with
          | zero => exact hacc
          | succ j =>
            have hj' : j < t.length := by
              simp only [List.length_cons] at hj
              omega
            exact hfirst j hj' (by omega)
    · rw [if_neg hr]
      rcases ih acc with ⟨hb, he⟩ | ⟨i', hi', he, hacc, hmax, hfirst⟩
      · left
        refine ⟨?_, he⟩
        intro x hx
        rcases List.mem_cons.mp hx with rfl | hx
        · exact le_of_not_lt hr
        · exact hb x hx
      · right
        have hi1 : i' + 1 < (r :: t).length := by
          simp only [List.length_cons]
          omega
        refine ⟨i' + 1, hi1, ?_, ?_, ?_, ?_⟩
        · exact he
        · exact hacc
        · intro j hj
          cases j with
          | zero => exact le_trans (le_of_not_lt hr) (le_of_lt hacc)
          | succ j =>
            have hj' : j < t.length := by
              simp only [List.length_cons] at hj
              omega
            exact hmax j hj'
        · intro j hj hji
          cases j with
          | zero => exact lt_of_le_of_lt (le_of_not_lt hr) hacc
          | succ j =>
            have hj' : j < t.length := by
              simp only [List.length_cons] at hj
              omega
            exact hfirst j hj' (by omega)

/-- C5: the tick verdict is the process with the maximum `Noise_Score`, and on
a tie the first process reached in iteration order wins — the reported index
`i` attains the maximum and every earlier process scores strictly less, so a
later process with an equal score never replaces the current maximum. -/
theorem verdict_first_argmax (K : ℚ) (rows : List ScoreRow)
    (hK : 0 ≤ K) (hne : rows ≠ [])
    (hnn : ∀ r ∈ rows, 0 ≤ r.mis ∧ 0 ≤ r.llc ∧ 0 ≤ r.bw) :
    ∃ i, ∃ hi : i < rows.length,
      verdict K rows = (noiseScore K rows (rows.get ⟨i, hi⟩), (rows.get ⟨i, hi⟩).name) ∧
      (∀ j, ∀ hj : j < rows.length,
        noiseScore K rows (rows.get ⟨j, hj⟩) ≤ noiseScore K rows (rows.get ⟨i, hi⟩)) ∧
      (∀ j, ∀ hj : j < rows.length, j < i →
        noiseScore K rows (rows.get ⟨j, hj⟩) < noiseScore K rows (rows.get ⟨i, hi⟩)) := by
  rcases foldl_argmax (noiseScore K rows) rows (-1, "") with
    ⟨hb, _⟩ | ⟨i, hi, he, _, hmax, hfirst⟩
  · exfalso
    obtain ⟨r, hr⟩ := List.exists_mem_of_ne_nil rows hne
    have h1 := hb r hr
    have h2 := noiseScore_nonneg K rows r hK (hnn r hr) hnn
    have h3 : ((-1 : ℚ), ("" : String)).1 = (-1 : ℚ) := rfl
    rw [h3] at h1
    linarith
  · exact ⟨i, hi, he, hmax, hfirst⟩

/-- Witness for C5 on a two-process tick with identical rows (a perfect tie):
the verdict is the first process. -/
theorem verdict_first_argmax_witness :
    ((0 : ℚ) ≤ 1 ∧ [ScoreRow.mk "a" 1 1 1, ScoreRow.mk "b" 1 1 1] ≠ [] ∧
      (∀ r ∈ [ScoreRow.mk "a" 1 1 1, ScoreRow.mk "b" 1 1 1],
        0 ≤ r.mis ∧ 0 ≤ r.llc ∧ 0 ≤ r.bw)) ∧
    (∃ i, ∃ hi : i < [ScoreRow.mk "a" 1 1 1, ScoreRow.mk "b" 1 1 1].length,
      verdict 1 [ScoreRow.mk "a" 1 1 1, ScoreRow.mk "b" 1 1 1]
        = (noiseScore 1 [ScoreRow.mk "a" 1 1 1, ScoreRow.mk "b" 1 1 1]
            ([ScoreRow.mk "a" 1 1 1, ScoreRow.mk "b" 1 1 1].get ⟨i, hi⟩),
           ([ScoreRow.mk "a" 1 1 1, ScoreRow.mk "b" 1 1 1].get ⟨i, hi⟩).name) ∧
      (∀ j, ∀ hj : j < [ScoreRow.mk "a" 1 1 1, ScoreRow.mk "b" 1 1 1].length,
        noiseScore 1 [ScoreRow.mk "a" 1 1 1, ScoreRow.mk "b" 1 1 1]
            ([ScoreRow.mk "a" 1 1 1, ScoreRow.mk "b" 1 1 1].get ⟨j, hj⟩)
          ≤ noiseScore 1 [ScoreRow.mk "a" 1 1 1, ScoreRow.mk "b" 1 1 1]
              ([ScoreRow.mk "a" 1 1 1, ScoreRow.mk "b" 1 1 1].get ⟨i, hi⟩)) ∧
      (∀ j, ∀ hj : j < [ScoreRow.mk "a" 1 1 1, ScoreRow.mk "b" 1 1 1].length, j < i →
        noiseScore 1 [ScoreRow.mk "a" 1 1 1, ScoreRow.mk "b" 1 1 1]
            ([ScoreRow.mk "a" 1 1 1, ScoreRow.mk "b" 1 1 1].get ⟨j, hj⟩)
          < noiseScore 1 [ScoreRow.mk "a" 1 1 1, ScoreRow.mk "b" 1 1 1]
              ([ScoreRow.mk "a" 1 1 1, ScoreRow.mk "b" 1 1 1].get ⟨i, hi⟩))) :=
  ⟨⟨by norm_num, by simp,
    by
      intro r hr
      rcases List.mem_cons.mp hr with rfl | hr
      · exact ⟨by norm_num, by norm_num, by norm_num⟩
      · rcases List.mem_cons.mp hr with rfl | hr
        · exact ⟨by norm_num, by norm_num, by norm_num⟩
        · cases hr⟩,
   verdict_first_argmax 1 [ScoreRow.mk "a" 1 1 1, ScoreRow.mk "b" 1 1 1]
     (by norm_num) (by simp)
     (by
       intro r hr
       rcases List.mem_cons.mp hr with rfl | hr
       · exact ⟨by norm_num, by norm_num, by norm_num⟩
       · rcases List.mem_cons.mp hr with rfl | hr
         · exact ⟨by norm_num, by norm_num, by norm_num⟩
         · cases hr)⟩

/-- C2: the scorer computes `Noise = (normBW + normOcc) + K·normMiss`; on the
tick with bandwidths {10, 20, 70}, equal misses {100, 100, 100}, equal
occupancies `c ≥ 0`, and `K = 1`, all three processes get `Harm_Score = 1/3`,
the bandwidth-70 process has the strictly largest `Occ_Score` and
`Noise_Score`, and it is reported as the tick's verdict. -/
theorem scorer_example_verdict (c : ℚ) (hc : 0 ≤ c) :
    (∀ (W : ℚ) (rows : List ScoreRow) (r : ScoreRow),
      noiseScore W rows r
        = (r.bw / orOne (sumBW rows) + r.llc / orOne (sumLLC rows))
          + W * (r.mis / orOne (sumMis rows))) ∧
    harmScore [ScoreRow.mk "p1" 100 c 10, ScoreRow.mk "p2" 100 c 20, ScoreRow.mk "p3" 100 c 70]
        (ScoreRow.mk "p1" 100 c 10) = 1 / 3 ∧
    harmScore [ScoreRow.mk "p1" 100 c 10, ScoreRow.mk "p2" 100 c 20, ScoreRow.mk "p3" 100 c 70]
        (ScoreRow.mk "p2" 100 c 20) = 1 / 3 ∧
    harmScore [ScoreRow.mk "p1" 100 c 10, ScoreRow.mk "p2" 100 c 20, ScoreRow.mk "p3" 100 c 70]
        (ScoreRow.mk "p3" 100 c 70) = 1 / 3 ∧
    occScore [ScoreRow.mk "p1" 100 c 10, ScoreRow.mk "p2" 100 c 20, ScoreRow.mk "p3" 100 c 70]
        (ScoreRow.mk "p1" 100 c 10)
      < occScore [ScoreRow.mk "p1" 100 c 10, ScoreRow.mk "p2" 100 c 20, ScoreRow.mk "p3" 100 c 70]
        (ScoreRow.mk "p3" 100 c 70) ∧
    occScore [ScoreRow.mk "p1" 100 c 10, ScoreRow.mk "p2" 100 c 20, ScoreRow.mk "p3" 100 c 70]
        (ScoreRow.mk "p2" 100 c 20)
      < occScore [ScoreRow.mk "p1" 100 c 10, ScoreRow.mk "p2" 100 c 20, ScoreRow.mk "p3" 100 c 70]
        (ScoreRow.mk "p3" 100 c 70) ∧
    noiseScore 1 [ScoreRow.mk "p1" 100 c 10, ScoreRow.mk "p2" 100 c 20, ScoreRow.mk "p3" 100 c 70]
        (ScoreRow.mk "p1" 100 c 10)
      < noiseScore 1
        [ScoreRow.mk "p1" 100 c 10, ScoreRow.mk "p2" 100 c 20, ScoreRow.mk "p3" 100 c 70]
        (ScoreRow.mk "p3" 100 c 70) ∧
    noiseScore 1 [ScoreRow.mk "p1" 100 c 10, ScoreRow.mk "p2" 100 c 20, ScoreRow.mk "p3" 100 c 70]
        (ScoreRow.mk "p2" 100 c 20)
      < noiseScore 1
        [ScoreRow.mk "p1" 100 c 10, ScoreRow.mk "p2" 100 c 20, ScoreRow.mk "p3" 100 c 70]
        (ScoreRow.mk "p3" 100 c 70) ∧
    (verdict 1
      [ScoreRow.mk "p1" 100 c 10, ScoreRow.mk "p2" 100 c 20, ScoreRow.mk "p3" 100 c 70]).2
      = "p3" := by
  have hbw : sumBW
      [ScoreRow.mk "p1" 100 c 10, ScoreRow.mk "p2" 100 c 20, ScoreRow.mk "p3" 100 c 70]
      = 100 := by
    norm_num [sumBW]
  have hmis : sumMis
      [ScoreRow.mk "p1" 100 c 10, ScoreRow.mk "p2" 100 c 20, ScoreRow.mk "p3" 100 c 70]
      = 300 := by
    norm_num [sumMis]
  have hllc3 : sumLLC
      [ScoreRow.mk "p1" 100 c 10, ScoreRow.mk "p2" 100 c 20, ScoreRow.mk "p3" 100 c 70]
      = 3 * c := by
    simp [sumLLC]
    ring
  have hharm : ∀ r : ScoreRow,
      harmScore [ScoreRow.mk "p1" 100 c 10, ScoreRow.mk "p2" 100 c 20, ScoreRow.mk "p3" 100 c 70]
        r = r.mis / 300 := by
    intro r
    simp only [harmScore, hmis]
    norm_num [orOne]
  have hlt : ∀ r s : ScoreRow, r.llc = c → s.llc = c → r.bw < s.bw →
      occScore [ScoreRow.mk "p1" 100 c 10, ScoreRow.mk "p2" 100 c 20, ScoreRow.mk "p3" 100 c 70]
        r
      < occScore
        [ScoreRow.mk "p1" 100 c 10, ScoreRow.mk "p2" 100 c 20, ScoreRow.mk "p3" 100 c 70] s := by
    intro r s hrc hsc hbwlt
    simp only [occScore, hbw, hrc, hsc]
    have h100 : orOne (100 : ℚ) = 100 := by norm_num [orOne]
    rw [h100]
    have : r.bw / 100 < s.bw / 100 := by linarith
    linarith
  have hnlt : ∀ r s : ScoreRow, r.llc = c → s.llc = c → r.mis = 100 → s.mis = 100 →
      r.bw < s.bw →
      noiseScore 1
        [ScoreRow.mk "p1" 100 c 10, ScoreRow.mk "p2" 100 c 20, ScoreRow.mk "p3" 100 c 70] r
      < noiseScore 1
        [ScoreRow.mk "p1" 100 c 10, ScoreRow.mk "p2" 100 c 20, ScoreRow.mk "p3" 100 c 70] s := by
    intro r s hrc hsc hrm hsm hbwlt
    have ho := hlt r s hrc hsc hbwlt
    have hhr := hharm r
    have hhs := hharm s
    simp only [noiseScore, hhr, hhs, hrm, hsm]
    linarith
  refine ⟨fun W rows r => rfl, ?_, ?_, ?_, ?_, ?_, ?_, ?_, ?_⟩
  · rw [hharm]
    norm_num
  · rw [hharm]
    norm_num
  · rw [hharm]
    norm_num
  · exact hlt _ _ rfl rfl (by norm_num)
  · exact hlt _ _ rfl rfl (by norm_num)
  · exact hnlt _ _ rfl rfl rfl rfl (by norm_num)
  · exact hnlt _ _ rfl rfl rfl rfl (by norm_num)
  · have hallnn : ∀ x ∈
        [ScoreRow.mk "p1" 100 c 10, ScoreRow.mk "p2" 100 c 20, ScoreRow.mk "p3" 100 c 70],
        0 ≤ x.mis ∧ 0 ≤ x.llc ∧ 0 ≤ x.bw := by
      intro x hx
      rcases List.mem_cons.mp hx with rfl | hx
      · exact ⟨by norm_num, hc, by norm_num⟩
      · rcases List.mem_cons.mp hx with rfl | hx
        · exact ⟨by norm_num, hc, by norm_num⟩
        · rcases List.mem_cons.mp hx with rfl | hx
          · exact ⟨by norm_num, hc, by norm_num⟩
          · cases hx
    have hn1 : 0 ≤ noiseScore 1
        [ScoreRow.mk "p1" 100 c 10, ScoreRow.mk "p2" 100 c 20, ScoreRow.mk "p3" 100 c 70]
        (ScoreRow.mk "p1" 100 c 10) :=
      noiseScore_nonneg 1 _ _ (by norm_num) ⟨by norm_num, hc, by norm_num⟩ hallnn
    have h12 := hnlt (ScoreRow.mk "p1" 100 c 10) (ScoreRow.mk "p2" 100 c 20)
      rfl rfl rfl rfl (by norm_num)
    have h23 := hnlt (ScoreRow.mk "p2" 100 c 20) (ScoreRow.mk "p3" 100 c 70)
      rfl rfl rfl rfl (by norm_num)
    have h1' : noiseScore 1
        [ScoreRow.mk "p1" 100 c 10, ScoreRow.mk "p2" 100 c 20, ScoreRow.mk "p3" 100 c 70]
        (ScoreRow.mk "p1" 100 c 10) > ((-1 : ℚ), ("" : String)).1 := by
      show ((-1 : ℚ)) < _
      linarith
    have h2' : noiseScore 1
        [ScoreRow.mk "p1" 100 c 10, ScoreRow.mk "p2" 100 c 20, ScoreRow.mk "p3" 100 c 70]
        (ScoreRow.mk "p2" 100 c 20)
        > ((noiseScore 1
            [ScoreRow.mk "p1" 100 c 10, ScoreRow.mk "p2" 100 c 20, ScoreRow.mk "p3" 100 c 70]
            (ScoreRow.mk "p1" 100 c 10)), ("p1" : String)).1 := h12
    have h3' : noiseScore 1
        [ScoreRow.mk "p1" 100 c 10, ScoreRow.mk "p2" 100 c 20, ScoreRow.mk "p3" 100 c 70]
        (ScoreRow.mk "p3" 100 c 70)
        > ((noiseScore 1
            [ScoreRow.mk "p1" 100 c 10, ScoreRow.mk "p2" 100 c 20, ScoreRow.mk "p3" 100 c 70]
            (ScoreRow.mk "p2" 100 c 20)), ("p2" : String)).1 := h23
    unfold verdict
    rw [List.foldl_cons, List.foldl_cons, List.foldl_cons, List.foldl_nil]
    rw [if_pos h1', if_pos h2', if_pos h3']

/-- Witness for C2 at equal occupancies `c = 0`: the verdict is `"p3"`, the
bandwidth-70 process. -/
theorem scorer_example_verdict_witness :
    (0 : ℚ) ≤ 0 ∧
    (verdict 1
      [ScoreRow.mk "p1" 100 0 10, ScoreRow.mk "p2" 100 0 20, ScoreRow.mk "p3" 100 0 70]).2
      = "p3" :=
  ⟨le_refl 0, (scorer_example_verdict 0 (le_refl 0)).2.2.2.2.2.2.2.2⟩

/-! ## Aggregator theorems -/

theorem sumOccAgg_upsert (acc : List (String × ProcessSample)) (lbl : String)
    (cs : CounterSample) :
    sumOccAgg (upsert acc lbl cs) = sumOccAgg acc + cs.occupancy := by
  induction acc with
  | nil => simp [upsert, sumOccAgg, addSample, emptyPS]
  | cons hd rest ih =>
    obtain ⟨p, ps⟩ := hd
    by_cases hp : p = lbl
    · simp only [upsert, hp, if_true]
      simp [sumOccAgg, addSample]
      ring
    · simp only [upsert, hp, if_false]
      simp only [sumOccAgg, List.map_cons, List.sum_cons] at ih ⊢
      rw [ih]
      ring

theorem occOf_upsert (acc : List (String × ProcessSample)) (lbl lbl' : String)
    (cs : CounterSample) :
    occOf lbl' (upsert acc lbl cs)
      = occOf lbl' acc + (if lbl = lbl' then cs.occupancy else 0) := by
  induction acc with
  | nil =>
    by_cases h : lbl = lbl'
    · subst h
      simp [upsert, occOf, List.lookup, addSample, emptyPS]
    · have hb : (lbl' == lbl) = false := by
        simp [h]
        intro he
        exact h he.symm
      simp [upsert, occOf, List.lookup, hb, h]
  | cons hd rest ih =>
    obtain ⟨p, ps⟩ := hd
    by_cases hp : p = lbl
    · subst hp
      by_cases h : p = lbl'
      · subst h
        simp [upsert, occOf, List.lookup, addSample]
      · have hb : (lbl' == p) = false := by
          simp
          intro he
          exact h he.symm
        simp [upsert, occOf, List.lookup, hb, h]
    · by_cases h : lbl' = p
      · subst h
        have hne : ¬ lbl = lbl' := fun he => hp he.symm
        simp [upsert, hp, occOf, List.lookup, hne]
      · have hb : (lbl' == p) = false := by simp [h]
        simp only [upsert, hp, if_false]
        simp only [occOf, List.lookup, hb] at ih ⊢
        exact ih

theorem foldAgg_sum (tmap : List (Nat × String)) :
    ∀ (samples : List CounterSample) (acc : List (String × ProcessSample)),
      sumOccAgg (samples.foldl (fun acc cs => upsert acc (resolveProc tmap cs.target) cs) acc)
        = sumOccAgg acc + (samples.map (·.occupancy)).sum := by
  intro samples
  induction samples with
  | nil => intro acc; simp
  | cons cs rest ih =>
    intro acc
    rw [List.foldl_cons, ih, sumOccAgg_upsert]
    simp
    ring

theorem foldAgg_occOf (tmap : List (Nat × String)) (lbl : String) :
    ∀ (samples : List CounterSample) (acc : List (String × ProcessSample)),
      occOf lbl (samples.foldl (fun acc cs => upsert acc (resolveProc tmap cs.target) cs) acc)
        = occOf lbl acc
          + ((samples.filter (fun cs => resolveProc tmap cs.target == lbl)).map
              (·.occupancy)).sum := by
  intro samples
  induction samples with
  | nil => intro acc; simp
  | cons cs rest ih =>
    intro acc
    rw [List.foldl_cons, ih, occOf_upsert]
    by_cases h : resolveProc tmap cs.target = lbl
    · simp [List.filter_cons, h]
      ring
    · have hb : (resolveProc tmap cs.target == lbl) = false := by simp [h]
      simp [List.filter_cons, hb, h]

/-- C3: the aggregation fold conserves occupancy — the per-process totals of a
tick sum to exactly the tick's per-target sample total, and more precisely
every label (including `"unmapped"`) is credited with exactly the occupancy of
the samples resolving to it; a target absent from the static map resolves to
the label `"unmapped"` and its sample is therefore never dropped. -/
theorem aggTick_conservation (tmap : List (Nat × String)) (samples : List CounterSample) :
    sumOccAgg (aggTick tmap samples) = (samples.map (·.occupancy)).sum ∧
    (∀ lbl, occOf lbl (aggTick tmap samples)
      = ((samples.filter (fun cs => resolveProc tmap cs.target == lbl)).map
          (·.occupancy)).sum) ∧
    (∀ t, tmap.lookup t = none → resolveProc tmap t = "unmapped") := by
  refine ⟨?_, ?_, ?_⟩
  · have h := foldAgg_sum tmap samples []
    simpa [aggTick, sumOccAgg] using h
  · intro lbl
    have h := foldAgg_occOf tmap lbl samples []
    simpa [aggTick, occOf] using h
  · intro t ht
    simp [resolveProc, ht]

/-- Witness for C3: target 7 is absent from the map `[(1, "A")]`, resolves to
`"unmapped"`, and its occupancy 42 is fully credited to the `"unmapped"`
process total. -/
theorem aggTick_conservation_witness :
    ([(1, "A")] : List (Nat × String)).lookup 7 = none ∧
    resolveProc [(1, "A")] 7 = "unmapped" ∧
    occOf "unmapped" (aggTick [(1, "A")] [CounterSample.mk 7 1 2 42 3 4])
      = (([CounterSample.mk 7 1 2 42 3 4].filter
          (fun cs => resolveProc [(1, "A")] cs.target == "unmapped")).map
            (·.occupancy)).sum :=
  ⟨rfl, (aggTick_conservation [(1, "A")] []).2.2 7 rfl,
   (aggTick_conservation [(1, "A")] [CounterSample.mk 7 1 2 42 3 4]).2.1 "unmapped"⟩

/-! ## Startup, monitor-phase and teardown theorems -/

/-- C7 counterexample: on the zero mask text `"0"`, the startup path of
`split_cache_and_monitor.c` does not terminate with an error — it proceeds
past `split_mask` with the empty masks `(0, 0)` and goes on to write
schemata derived from the empty mask. -/
theorem vm_zero_mask_counterexample : vmStartup ['0'] = Except.ok (0, 0) := by
  rfl

/-- C7 (amended): `cos.c` checks `total_ways == 0` and dies with a fatal
configuration error before partitioning, for every CBM text that parses to a
mask with zero set bits; `split_cache_and_monitor.c` performs no such check
and proceeds to split the empty mask. -/
theorem cos_zero_mask_fatal (cbm : List Char) (m : Nat)
    (hlen : ¬ ((stripHex0x cbm).length = 0 ∨ 16 < (stripHex0x cbm).length))
    (hparse : parseHexList (stripHex0x cbm) = some m)
    (hzero : count_bits m = 0) :
    cosStartup cbm = Except.error "Full mask has zero bits set—unexpected" ∧
    vmStartup ['0'] = Except.ok (split_mask 0) := by
  constructor
  · unfold cosStartup
    rw [if_neg hlen, hparse]
    simp only [hzero, if_true]
  · rfl

/-- Witness for the amended C7 at the CBM text `"0"`. -/
theorem cos_zero_mask_fatal_witness :
    (¬ ((stripHex0x ['0']).length = 0 ∨ 16 < (stripHex0x ['0']).length) ∧
      parseHexList (stripHex0x ['0']) = some 0 ∧ count_bits 0 = 0) ∧
    (cosStartup ['0'] = Except.error "Full mask has zero bits set—unexpected" ∧
      vmStartup ['0'] = Except.ok (split_mask 0)) :=
  ⟨⟨by decide, rfl, by rw [count_bits]; simp⟩,
   cos_zero_mask_fatal ['0'] 0 (by decide) rfl (by rw [count_bits]; simp)⟩

/-- C8 counterexample: with both initial liveness checks passing and the
first target dead at the first tick, `monitor_pids_pair` aborts with the
liveness error, but both output files of the phase already exist and contain
the header line — the claim that no output file (not even a header-only one)
exists is false. -/
theorem monitor_vanish_counterexample :
    (monitor_pids_pair true true (fun _ => false) (fun _ => true)
        (fun _ => "") (fun _ => "") 7 8 5).result
      = Except.error "PID 7 disappeared" ∧
    (monitor_pids_pair true true (fun _ => false) (fun _ => true)
        (fun _ => "") (fun _ => "") 7 8 5).file1 = [monHeader] ∧
    (monitor_pids_pair true true (fun _ => false) (fun _ => true)
        (fun _ => "") (fun _ => "") 7 8 5).file2 = [monHeader] ∧
    [monHeader] ≠ ([] : List String) := by
  refine ⟨rfl, rfl, rfl, by simp⟩

/-- C8 (amended): if a monitored target passes the initial liveness check but
has vanished by the first tick of a phase, the run aborts with the liveness
error `PID <pid> disappeared`; the phase's two output files have however
already been created and hold exactly the header line, so header-only partial
output files do exist. -/
theorem monitor_vanish_aborts (alive2 : Nat → Bool) (row1 row2 : Nat → String)
    (pid1 pid2 duration : Nat) (alive1 : Nat → Bool)
    (h1 : alive1 0 = false) (hd : 0 < duration) :
    monitor_pids_pair true true alive1 alive2 row1 row2 pid1 pid2 duration
      = ⟨Except.error ("PID " ++ Nat.repr pid1 ++ " disappeared"),
         [monHeader], [monHeader]⟩ := by
  unfold monitor_pids_pair
  simp only [Bool.true_eq_false, if_false]
  obtain ⟨d, rfl⟩ : ∃ d, duration = d + 1 := ⟨duration - 1, by omega⟩
  rw [monLoop]
  simp only [h1, if_true]

/-- Witness for the amended C8 at pids 7 and 8 with a 5-tick phase. -/
theorem monitor_vanish_aborts_witness :
    ((fun _ : Nat => false) 0 = false ∧ 0 < 5) ∧
    monitor_pids_pair true true (fun _ => false) (fun _ => true)
        (fun _ => "") (fun _ => "") 7 8 5
      = ⟨Except.error ("PID " ++ Nat.repr 7 ++ " disappeared"),
         [monHeader], [monHeader]⟩ :=
  ⟨⟨rfl, by norm_num⟩,
   monitor_vanish_aborts (fun _ => true) (fun _ => "") (fun _ => "") 7 8 5
     (fun _ => false) rfl (by norm_num)⟩

/-- C9: the inter-phase teardown. `split_cache_and_monitor.c` appends both
pids to the default membership file `/sys/fs/resctrl/tasks` and removes both
COS directories before phase 2; the "CLEANUP & PHASE 2" block of `cos.c`,
while printing "Returned PID to default group", actually appends the pids
back to `COS1/tasks` and `COS2/tasks` — not to the default membership file —
contradicting its own output message. -/
theorem teardown_targets :
    vmInterPhase 1111 2222
      = [ResctrlOp.appendTasks DEFAULT_TASKS 1111,
         ResctrlOp.appendTasks DEFAULT_TASKS 2222,
         ResctrlOp.rmdir COS1_DIR,
         ResctrlOp.rmdir COS2_DIR,
         ResctrlOp.monitorPhase "VM1_normal.txt" "VM2_normal.txt"] ∧
    (cosInterPhase 1111 2222).head? = some (ResctrlOp.appendTasks COS1_TASKS 1111) ∧
    ResctrlOp.appendTasks DEFAULT_TASKS 1111 ∉ cosInterPhase 1111 2222 ∧
    ResctrlOp.appendTasks DEFAULT_TASKS 2222 ∉ cosInterPhase 1111 2222 ∧
    COS1_TASKS ≠ DEFAULT_TASKS := by
  refine ⟨rfl, rfl, ?_, ?_, ?_⟩
  · decide
  · decide
  · decide
